import Mathlib

/-!
Verification development for the pmt2bmp converter (src/pmt2bmp.c).

The C program decodes a PMT raster image (6 RLE-encoded groups followed by a
64-byte footer holding a 16-entry color table) into a BMP pixel array plus a
BMP color table.  This file gives a shallow embedding of the core routines:

* `pmt_decode_group`   - the RLE decoder (while loop over the raw bytes);
* `pmt_plane_pixel`, `bmp_pixel`, `convert_group_to_bmp` - the bit-plane to
  packed-nibble reassembly;
* `pmt_to_bmp_color_table` - the palette conversion;
* `pmt_read_group`, `pmt_to_bmp` - the group reader and the pipeline driver.

Byte buffers are modelled as total functions `Nat → Nat`; every load or store
of a C `uint8_t` is wrapped in `% 256`, matching the truncation the machine
type performs.  Streams (`FILE *`) are a list of bytes plus a cursor, with
`fread` returning the bytes actually available.  Fallible routines return
`Except`; the C program signals every failure with `-1`/`NULL` after a
distinctive diagnostic, and the error enumeration below names those distinct
failure sites.
-/

/-- Single pixel row size for one VGA plane, 1 bit per pixel (C macro). -/
abbrev PMT_DECODED_ROW_PLANE_BYTES : Nat := 105

/-- Pixels per row (C macro: 105 * 8). -/
abbrev PMT_PIXELS_PER_ROW : Nat := PMT_DECODED_ROW_PLANE_BYTES * 8

/-- Number of VGA planes (C macro). -/
abbrev PMT_PLANES : Nat := 4

/-- Complete pixel row size, for all planes (C macro). -/
abbrev PMT_DECODED_ROW_BYTES : Nat := PMT_DECODED_ROW_PLANE_BYTES * PMT_PLANES

/-- BMP pixel row size, 4 bits per pixel (C macro). -/
abbrev BMP_ROW_BYTES : Nat := PMT_DECODED_ROW_BYTES

/-- Pixel rows per group (C macro). -/
abbrev PMT_ROWS_PER_GROUP : Nat := 148

/-- Complete group size (C macro, 62160). -/
abbrev PMT_DECODED_GROUP_BYTES : Nat := PMT_DECODED_ROW_BYTES * PMT_ROWS_PER_GROUP

/-- BMP bytes per group (C macro, equal to the decoded group size). -/
abbrev BMP_GROUP_BYTES : Nat := BMP_ROW_BYTES * PMT_ROWS_PER_GROUP

/-- Number of groups (C macro). -/
abbrev PMT_GROUPS : Nat := 6

/-- Total BMP pixel array size (C macro, 372960). -/
abbrev BMP_PIXEL_ARRAY_SIZE : Nat := BMP_GROUP_BYTES * PMT_GROUPS

/-- The distinct failure sites of the C program, one per diagnostic message. -/
inductive PmtErr where
  | truncatedInput
  | bufferTooSmall
  | inputOverrun
  | outputOverrun
  | sizeMismatch
  deriving DecidableEq, Repr

/-- The final size check at the end of `pmt_decode_group` (lines 186-192):
after the loop, the decoded byte count must equal the destination size. -/
def finalCheck (cap : Nat) (out : List Nat) : Except (PmtErr × List Nat) (List Nat) :=
  if out.length ≠ cap then .error (.sizeMismatch, out) else .ok out

/-- The while loop of `pmt_decode_group` (src/pmt2bmp.c lines 149-184).
`buf` is the raw group buffer, `size` the declared raw size, `cap` the
destination capacity, `si` the offset of `src` from the buffer base and
`out` the bytes written through `dst` so far.  Both input-bound checks
compare the post-increment source offset against `size` with `>`, exactly
as the C does; errors carry the output written so far (the C leaves the
destination buffer as it was). -/
def pmt_decode_loop (buf : Nat → Nat) (size cap si : Nat) (out : List Nat) :
    Except (PmtErr × List Nat) (List Nat) :=
  if h : si < size then
    if buf si % 256 &&& 0x80 ≠ 0 then
      -- run opcode: clearing the most significant bit gives the run length
      let run_length := buf si % 256 &&& 0x7f
      if si + 1 > size then .error (.inputOverrun, out)
      else if out.length + run_length > cap then .error (.outputOverrun, out)
      else pmt_decode_loop buf size cap (si + 2)
        (out ++ List.replicate run_length (buf (si + 1) % 256))
    else
      -- literal opcode: the byte value is the number of bytes copied verbatim
      let copy_count := buf si % 256
      if si + 1 > size then .error (.inputOverrun, out)
      else if out.length + copy_count > cap then .error (.outputOverrun, out)
      else pmt_decode_loop buf size cap (si + 1 + copy_count)
        (out ++ (List.range copy_count).map (fun k => buf (si + 1 + k) % 256))
  else finalCheck cap out
termination_by size - si
decreasing_by
  · omega
  · omega

/-- `pmt_decode_group` (src/pmt2bmp.c lines 144-193): run the decode loop from
the start of the raw buffer with an empty output.  On success the C function
returns the decoded byte count, i.e. the length of the `.ok` list. -/
def pmt_decode_group (buf : Nat → Nat) (size cap : Nat) :
    Except (PmtErr × List Nat) (List Nat) :=
  pmt_decode_loop buf size cap 0 []

/-- Fuel-bounded variant of the decode loop: `fuel` is the number of loop
iterations still allowed; `none` means the bound was exhausted.  Used to
state that the loop performs at most `size` iterations. -/
def pmt_decode_loop_fuel (buf : Nat → Nat) (size cap : Nat) :
    Nat → Nat → List Nat → Option (Except (PmtErr × List Nat) (List Nat))
  | 0, si, out =>
    if si < size then none else some (finalCheck cap out)
  | fuel + 1, si, out =>
    if si < size then
      if buf si % 256 &&& 0x80 ≠ 0 then
        if si + 1 > size then some (.error (.inputOverrun, out))
        else if out.length + (buf si % 256 &&& 0x7f) > cap then
          some (.error (.outputOverrun, out))
        else pmt_decode_loop_fuel buf size cap fuel (si + 2)
          (out ++ List.replicate (buf si % 256 &&& 0x7f) (buf (si + 1) % 256))
      else
        if si + 1 > size then some (.error (.inputOverrun, out))
        else if out.length + buf si % 256 > cap then
          some (.error (.outputOverrun, out))
        else pmt_decode_loop_fuel buf size cap fuel (si + 1 + buf si % 256)
          (out ++ (List.range (buf si % 256)).map (fun k => buf (si + 1 + k) % 256))
    else some (finalCheck cap out)

lemma pmt_decode_loop_body (buf : Nat → Nat) (size cap si : Nat) (out : List Nat)
    (h : si < size) :
    pmt_decode_loop buf size cap si out =
      if buf si % 256 &&& 0x80 ≠ 0 then
        if si + 1 > size then .error (.inputOverrun, out)
        else if out.length + (buf si % 256 &&& 0x7f) > cap then .error (.outputOverrun, out)
        else pmt_decode_loop buf size cap (si + 2)
          (out ++ List.replicate (buf si % 256 &&& 0x7f) (buf (si + 1) % 256))
      else
        if si + 1 > size then .error (.inputOverrun, out)
        else if out.length + buf si % 256 > cap then .error (.outputOverrun, out)
        else pmt_decode_loop buf size cap (si + 1 + buf si % 256)
          (out ++ (List.range (buf si % 256)).map (fun k => buf (si + 1 + k) % 256)) := by
  rw [pmt_decode_loop]
  simp only [dif_pos h]

lemma pmt_decode_loop_done (buf : Nat → Nat) (size cap si : Nat) (out : List Nat)
    (h : ¬ si < size) :
    pmt_decode_loop buf size cap si out = finalCheck cap out := by
  rw [pmt_decode_loop]
  simp only [dif_neg h]

/-- With at least `size - si` units of fuel, the bounded loop computes the
same result as the unbounded one: each iteration advances the source cursor
by at least one byte. -/
lemma pmt_decode_loop_fuel_spec (buf : Nat → Nat) (size cap : Nat) :
    ∀ fuel si out, size - si ≤ fuel →
      pmt_decode_loop_fuel buf size cap fuel si out =
        some (pmt_decode_loop buf size cap si out) := by
  intro fuel
  induction fuel with
  | zero =>
    intro si out hle
    have hns : ¬ si < size := by omega
    rw [pmt_decode_loop_done buf size cap si out hns]
    simp [pmt_decode_loop_fuel, hns]
  | succ fuel ih =>
    intro si out hle
    by_cases hs : si < size
    · rw [pmt_decode_loop_body buf size cap si out hs]
      rw [pmt_decode_loop_fuel]
      simp only [if_pos hs]
      by_cases hb : buf si % 256 &&& 0x80 ≠ 0
      · simp only [if_pos hb]
        have hin : ¬ si + 1 > size := by omega
        simp only [if_neg hin]
        by_cases hov : out.length + (buf si % 256 &&& 0x7f) > cap
        · simp only [if_pos hov]
        · simp only [if_neg hov]
          exact ih (si + 2) _ (by omega)
      · simp only [if_neg hb]
        have hin : ¬ si + 1 > size := by omega
        simp only [if_neg hin]
        by_cases hov : out.length + buf si % 256 > cap
        · simp only [if_pos hov]
        · simp only [if_neg hov]
          exact ih (si + 1 + buf si % 256) _ (by omega)
    · rw [pmt_decode_loop_done buf size cap si out hs]
      rw [pmt_decode_loop_fuel]
      simp only [if_neg hs]

/-- Claim C10: the decode loop terminates on every finite raw input: with a
fuel budget of exactly `raw_group_size` iterations the bounded loop never
exhausts its fuel and computes the full result of `pmt_decode_group`, since
every iteration advances the source cursor by at least one byte (by 2 for a
run opcode, by 1 + count for a literal opcode). -/
theorem c10_decode_terminates_within_size_iterations
    (buf : Nat → Nat) (size cap : Nat) :
    pmt_decode_loop_fuel buf size cap size 0 [] =
      some (pmt_decode_group buf size cap) := by
  rw [pmt_decode_group]
  exact pmt_decode_loop_fuel_spec buf size cap size 0 [] (by omega)

lemma finalCheck_ok {cap : Nat} {out l : List Nat} (h : finalCheck cap out = .ok l) :
    l.length = cap := by
  unfold finalCheck at h
  split at h
  · exact absurd h (by simp)
  · next hcond =>
    injection h with hh
    subst hh
    omega

lemma finalCheck_sizeMismatch {cap : Nat} {out l : List Nat}
    (h : finalCheck cap out = .error (.sizeMismatch, l)) : l.length ≠ cap := by
  unfold finalCheck at h
  split at h
  · next hcond =>
    injection h with hh
    rw [Prod.mk.injEq] at hh
    obtain ⟨-, h2⟩ := hh
    subst h2
    exact hcond
  · exact absurd h (by simp)

/-- The decode loop, when it reaches the final size check, accepts exactly the
target byte count: an `.ok` result always has length `cap`, and a size
mismatch failure always carries an output list whose length differs. -/
lemma pmt_decode_loop_fuel_length (buf : Nat → Nat) (size cap : Nat) :
    ∀ fuel si out,
      (∀ l, pmt_decode_loop_fuel buf size cap fuel si out = some (.ok l) →
        l.length = cap) ∧
      (∀ l, pmt_decode_loop_fuel buf size cap fuel si out =
          some (.error (.sizeMismatch, l)) → l.length ≠ cap) := by
  intro fuel
  induction fuel with
  | zero =>
    intro si out
    by_cases hs : si < size
    · constructor <;> intro l hl <;> simp [pmt_decode_loop_fuel, hs] at hl
    · constructor <;> intro l hl <;> rw [pmt_decode_loop_fuel, if_neg hs] at hl
      · exact finalCheck_ok (Option.some.inj hl)
      · exact finalCheck_sizeMismatch (Option.some.inj hl)
  | succ fuel ih =>
    intro si out
    by_cases hs : si < size
    · have hin : ¬ si + 1 > size := by omega
      constructor <;> intro l hl <;> rw [pmt_decode_loop_fuel, if_pos hs] at hl <;>
        by_cases hb : buf si % 256 &&& 0x80 ≠ 0
      · rw [if_pos hb, if_neg hin] at hl
        by_cases hov : out.length + (buf si % 256 &&& 0x7f) > cap
        · rw [if_pos hov] at hl; simp at hl
        · rw [if_neg hov] at hl; exact (ih _ _).1 l hl
      · rw [if_neg hb, if_neg hin] at hl
        by_cases hov : out.length + buf si % 256 > cap
        · rw [if_pos hov] at hl; simp at hl
        · rw [if_neg hov] at hl; exact (ih _ _).1 l hl
      · rw [if_pos hb, if_neg hin] at hl
        by_cases hov : out.length + (buf si % 256 &&& 0x7f) > cap
        · rw [if_pos hov] at hl; simp at hl
        · rw [if_neg hov] at hl; exact (ih _ _).2 l hl
      · rw [if_neg hb, if_neg hin] at hl
        by_cases hov : out.length + buf si % 256 > cap
        · rw [if_pos hov] at hl; simp at hl
        · rw [if_neg hov] at hl; exact (ih _ _).2 l hl
    · constructor <;> intro l hl <;> rw [pmt_decode_loop_fuel, if_neg hs] at hl
      · exact finalCheck_ok (Option.some.inj hl)
      · exact finalCheck_sizeMismatch (Option.some.inj hl)

/-- Claim C3: for every raw input whose decoding reaches the final check, the
call fails with `sizeMismatch` exactly when the total number of bytes written
differs from the expected 62160; a successful call returns a decoded buffer of
exactly 62160 bytes (the C function returns that count). -/
theorem c3_decode_size_check_exact (buf : Nat → Nat) (size : Nat) :
    (∀ l, pmt_decode_group buf size PMT_DECODED_GROUP_BYTES = .ok l →
      l.length = 62160) ∧
    (∀ l, pmt_decode_group buf size PMT_DECODED_GROUP_BYTES =
        .error (.sizeMismatch, l) → l.length ≠ 62160) := by
  have hfuel := pmt_decode_loop_fuel_spec buf size PMT_DECODED_GROUP_BYTES size 0 []
    (by omega)
  have hlen := pmt_decode_loop_fuel_length buf size PMT_DECODED_GROUP_BYTES size 0 []
  rw [pmt_decode_group] at *
  constructor
  · intro l hl
    exact hlen.1 l (by rw [hfuel, hl])
  · intro l hl
    exact hlen.2 l (by rw [hfuel, hl])

theorem c3_decode_size_check_exact_witness : ([] : List Nat).length ≠ 62160 :=
  (c3_decode_size_check_exact (fun _ => 0) 0).2 []
    (by rw [pmt_decode_group, pmt_decode_loop_done (fun _ => 0) 0
      PMT_DECODED_GROUP_BYTES 0 [] (by omega)]; rfl)

/-- Claim C6: whenever executing the pending opcode (run fill or literal copy)
would write past the 62160-byte decoded-output capacity, the decoder fails
with `outputOverrun` before performing the write: the error carries the output
written so far, unchanged and untruncated. -/
theorem c6_decode_output_overrun (buf : Nat → Nat) (size si : Nat) (out : List Nat)
    (h : si < size) (n : Nat)
    (hn : n = (if buf si % 256 &&& 0x80 ≠ 0 then buf si % 256 &&& 0x7f
               else buf si % 256))
    (hov : out.length + n > PMT_DECODED_GROUP_BYTES) :
    pmt_decode_loop buf size PMT_DECODED_GROUP_BYTES si out =
      .error (.outputOverrun, out) := by
  rw [pmt_decode_loop_body buf size PMT_DECODED_GROUP_BYTES si out h]
  have hin : ¬ si + 1 > size := by omega
  by_cases hb : buf si % 256 &&& 0x80 ≠ 0
  · rw [if_pos hb] at hn
    rw [if_pos hb, if_neg hin, if_pos (show _ by omega)]
  · rw [if_neg hb] at hn
    rw [if_neg hb, if_neg hin, if_pos (show _ by omega)]

theorem c6_decode_output_overrun_witness :
    pmt_decode_loop (fun _ => 0xff) 1 PMT_DECODED_GROUP_BYTES 0
        (List.replicate 62160 0) =
      .error (.outputOverrun, List.replicate 62160 0) :=
  c6_decode_output_overrun (fun _ => 0xff) 1 0 (List.replicate 62160 0)
    Nat.one_pos 127 (by decide) (by rw [List.length_replicate]; decide)

/-- Claim C1 (code bug): a raw group consisting of the single byte 0x81
declares a run of length 1 whose run-value byte would sit at offset 1, at the
declared input size.  The decoder is supposed to fail with `inputOverrun`
here, but its bounds check compares the post-increment offset with a strict
`>` against the size, which can never fire: the decoder instead reads the
byte beyond the declared input (here 0x37), writes it to the output, and only
later fails the size check.  The 0x37 in the result exhibits the
out-of-bounds read. -/
theorem c1_decode_reads_run_value_past_declared_input :
    pmt_decode_group (fun k => if k = 0 then 0x81 else 0x37) 1
        PMT_DECODED_GROUP_BYTES =
      .error (.sizeMismatch, [0x37]) := by
  have h := pmt_decode_loop_fuel_spec (fun k => if k = 0 then 0x81 else 0x37) 1
    PMT_DECODED_GROUP_BYTES 1 0 [] (by omega)
  have h2 : pmt_decode_loop_fuel (fun k => if k = 0 then 0x81 else 0x37) 1
      PMT_DECODED_GROUP_BYTES 1 0 [] = some (.error (.sizeMismatch, [0x37])) := by
    rfl
  rw [pmt_decode_group]
  exact Option.some.inj (h.symm.trans h2)

lemma land_127_eq_mod (b : Nat) : b &&& 0x7f = b % 128 := by
  have h := Nat.and_pow_two_sub_one_eq_mod b 7
  norm_num at h
  exact h

lemma add128_and_128 (n : Nat) (h : n ≤ 127) : (128 + n) &&& 0x80 ≠ 0 := by
  have hbit : (128 + n).testBit 7 = true := by
    rw [Nat.testBit_to_div_mod]
    simp only [decide_eq_true_eq]
    omega
  have h2 := Nat.and_two_pow (128 + n) 7
  rw [hbit] at h2
  norm_num at h2
  omega

lemma add128_and_127 (n : Nat) (h : n ≤ 127) : (128 + n) &&& 0x7f = n := by
  rw [land_127_eq_mod]
  omega

lemma lt128_and_128 (b : Nat) (h : b < 128) : b &&& 0x80 = 0 := by
  rw [show (0x80 : Nat) = 2 ^ 7 by norm_num, Nat.and_two_pow,
    Nat.testBit_lt_two_pow (by norm_num; omega)]
  norm_num

/-- An RLE opcode as described by the spec: a run (high bit set, low 7 bits
give the run length, followed by the fill value) or a literal copy (count
byte followed by the literal bytes). -/
inductive PmtOp where
  | run : Nat → Nat → PmtOp
  | lit : List Nat → PmtOp

/-- Well-formedness of an opcode: run lengths and literal counts fit in
7 bits, and all payload bytes are byte values. -/
def opWF : PmtOp → Bool
  | .run n v => decide (n ≤ 127) && decide (v < 256)
  | .lit bs => decide (bs.length ≤ 127) && bs.all (fun b => decide (b < 256))

/-- Raw encoding of one opcode: control byte followed by its payload. -/
def opBytes : PmtOp → List Nat
  | .run n v => [128 + n, v]
  | .lit bs => bs.length :: bs

/-- Raw encoding of an opcode sequence. -/
def opsBytes (ops : List PmtOp) : List Nat := (ops.map opBytes).flatten

/-- Decoded output of one opcode per the spec: a run writes `n` copies of the
fill value, a literal copy writes its bytes verbatim. -/
def opDenote : PmtOp → List Nat
  | .run n v => List.replicate n v
  | .lit bs => bs

/-- Decoded output of an opcode sequence. -/
def opsDenote (ops : List PmtOp) : List Nat := (ops.map opDenote).flatten

lemma decode_ops_aux :
    ∀ ops : List PmtOp, ∀ buf : Nat → Nat, ∀ size cap si : Nat, ∀ out : List Nat,
      (∀ op ∈ ops, opWF op = true) →
      size = si + (opsBytes ops).length →
      (∀ k, k < (opsBytes ops).length → buf (si + k) % 256 = (opsBytes ops).getD k 0) →
      out.length + (opsDenote ops).length ≤ cap →
      pmt_decode_loop buf size cap si out = finalCheck cap (out ++ opsDenote ops) := by
  intro ops
  induction ops with
  | nil =>
    intro buf size cap si out hwf hsize hbuf hcap
    have hlen0 : (opsBytes ([] : List PmtOp)).length = 0 := by simp [opsBytes]
    have hns : ¬ si < size := by omega
    rw [pmt_decode_loop_done buf size cap si out hns]
    simp [opsDenote]
  | cons op rest ih =>
    intro buf size cap si out hwf hsize hbuf hcap
    have hwfop : opWF op = true := hwf op (List.mem_cons_self op rest)
    have hwfrest : ∀ o ∈ rest, opWF o = true := fun o ho => hwf o (List.mem_cons_of_mem op ho)
    have hBytes : opsBytes (op :: rest) = opBytes op ++ opsBytes rest := by
      simp [opsBytes]
    have hDen : opsDenote (op :: rest) = opDenote op ++ opsDenote rest := by
      simp [opsDenote]
    cases op with
    | run n v =>
      have hn : n ≤ 127 := by
        simp [opWF] at hwfop
        exact hwfop.1
      have hlen : (opsBytes (PmtOp.run n v :: rest)).length = 2 + (opsBytes rest).length := by
        rw [hBytes]
        simp [opBytes]
        omega
      have hs : si < size := by omega
      have hb0 : buf si % 256 = 128 + n := by
        have := hbuf 0 (by omega)
        rw [Nat.add_zero] at this
        rw [this, hBytes]
        simp [opBytes]
      have hb1 : buf (si + 1) % 256 = v := by
        have := hbuf 1 (by omega)
        rw [this, hBytes]
        simp [opBytes]
      rw [pmt_decode_loop_body buf size cap si out hs]
      rw [hb0, if_pos (add128_and_128 n hn), add128_and_127 n hn]
      have hdenlen : (opsDenote (PmtOp.run n v :: rest)).length =
          n + (opsDenote rest).length := by
        rw [hDen]
        simp [opDenote]
      rw [if_neg (show ¬ si + 1 > size by omega),
        if_neg (show ¬ out.length + n > cap by omega), hb1]
      have hrec := ih buf size cap (si + 2) (out ++ List.replicate n v)
        hwfrest (by omega)
        (by
          intro k hk
          have := hbuf (2 + k) (by omega)
          rw [show si + (2 + k) = si + 2 + k by omega] at this
          rw [this, hBytes]
          simp only [opBytes, List.cons_append, List.nil_append]
          rw [show 2 + k = k + 1 + 1 by omega]
          simp)
        (by
          rw [List.length_append, List.length_replicate]
          omega)
      rw [hrec, hDen]
      simp [opDenote, List.append_assoc]
    | lit bs =>
      have hn : bs.length ≤ 127 := by
        simp [opWF] at hwfop
        exact hwfop.1
      have hlen : (opsBytes (PmtOp.lit bs :: rest)).length =
          1 + bs.length + (opsBytes rest).length := by
        rw [hBytes]
        simp [opBytes]
        omega
      have hs : si < size := by omega
      have hb0 : buf si % 256 = bs.length := by
        have := hbuf 0 (by omega)
        rw [Nat.add_zero] at this
        rw [this, hBytes]
        simp [opBytes]
      rw [pmt_decode_loop_body buf size cap si out hs]
      have hb128 : ¬ (buf si % 256 &&& 0x80 ≠ 0) := by
        rw [hb0]
        simp [lt128_and_128 bs.length (by omega)]
      rw [if_neg hb128, hb0]
      have hdenlen : (opsDenote (PmtOp.lit bs :: rest)).length =
          bs.length + (opsDenote rest).length := by
        rw [hDen]
        simp [opDenote]
      rw [if_neg (show ¬ si + 1 > size by omega),
        if_neg (show ¬ out.length + bs.length > cap by omega)]
      have hlit : (List.range bs.length).map (fun k => buf (si + 1 + k) % 256) = bs := by
        apply List.ext_getElem
        · simp
        · intro k hk1 hk2
          simp only [List.getElem_map, List.getElem_range]
          have hkb : k < bs.length := by simpa using hk2
          have := hbuf (1 + k) (by omega)
          rw [show si + (1 + k) = si + 1 + k by omega] at this
          rw [this, hBytes]
          simp only [opBytes, List.cons_append]
          rw [show 1 + k = k + 1 by omega]
          simp only [List.getD_eq_getElem?_getD, List.getElem?_cons_succ]
          rw [List.getElem?_append_left hkb]
          simp [List.getElem?_eq_getElem hkb]
      rw [hlit]
      have hrec := ih buf size cap (si + 1 + bs.length) (out ++ bs)
        hwfrest (by omega)
        (by
          intro k hk
          have := hbuf (1 + bs.length + k) (by omega)
          rw [show si + (1 + bs.length + k) = si + 1 + bs.length + k by omega] at this
          rw [this, hBytes]
          simp only [opBytes, List.cons_append]
          rw [show 1 + bs.length + k = bs.length + k + 1 by omega]
          simp only [List.getD_eq_getElem?_getD, List.getElem?_cons_succ]
          rw [List.getElem?_append_right (by omega), Nat.add_sub_cancel_left])
        (by
          rw [List.length_append]
          omega)
      rw [hrec, hDen]
      simp [opDenote, List.append_assoc]

/-- Claim C2: the decoder interprets each control byte per the two-opcode
scheme: high bit set means a run whose length is the low 7 bits and whose
fill value is the next byte, written that many times; high bit clear means
the byte value counts subsequent bytes copied verbatim; decoding proceeds
opcode by opcode until the raw input is fully consumed, after which the
final size check runs on the accumulated output. -/
theorem c2_decode_opcode_semantics (ops : List PmtOp) (buf : Nat → Nat) (cap : Nat)
    (hwf : ∀ op ∈ ops, opWF op = true)
    (hbuf : ∀ k, k < (opsBytes ops).length → buf k % 256 = (opsBytes ops).getD k 0)
    (hcap : (opsDenote ops).length ≤ cap) :
    pmt_decode_group buf (opsBytes ops).length cap = finalCheck cap (opsDenote ops) := by
  rw [pmt_decode_group]
  have h0 : ∀ k, k < (opsBytes ops).length →
      buf (0 + k) % 256 = (opsBytes ops).getD k 0 := by
    intro k hk
    rw [Nat.zero_add]
    exact hbuf k hk
  have h := decode_ops_aux ops buf (opsBytes ops).length cap 0 [] hwf (by omega) h0
    (by simpa using hcap)
  simpa using h

theorem c2_decode_opcode_semantics_witness :
    pmt_decode_group (fun k => [130, 7, 3, 1, 2, 3].getD k 0) 6 5 =
      .ok [7, 7, 1, 2, 3] := by
  have h := c2_decode_opcode_semantics [PmtOp.run 2 7, PmtOp.lit [1, 2, 3]]
    (fun k => [130, 7, 3, 1, 2, 3].getD k 0) 5 (by decide) (by decide) (by decide)
  exact h

/-- `pmt_plane_pixel` (src/pmt2bmp.c lines 196-199): build a one-bit mask in a
uint8 and extract the bit at position `idx` of the plane byte. -/
def pmt_plane_pixel (b idx : Nat) : Nat := (b &&& ((1 <<< idx) % 256)) >>> idx

/-- The plane loop of `bmp_pixel` (src/pmt2bmp.c lines 208-212): for each of
the 4 planes, add the plane bit shifted by the plane number into the uint8
accumulator.  `row` is the flat 420-byte decoded row; the C code indexes
`(*pmt_row)[plane][byteIdx]`, which is flat offset `plane * 105 + byteIdx`. -/
def bmp_pixel_loop (row : Nat → Nat) (byteIdx bitIdx plane result : Nat) : Nat :=
  if h : plane < PMT_PLANES then
    bmp_pixel_loop row byteIdx bitIdx (plane + 1)
      ((result +
        (pmt_plane_pixel (row (plane * PMT_DECODED_ROW_PLANE_BYTES + byteIdx) % 256)
          bitIdx <<< plane)) % 256)
  else result
termination_by PMT_PLANES - plane

/-- `bmp_pixel` (src/pmt2bmp.c lines 202-215): byte index is `idx / 8`, the
bit position within the byte is `7 - (idx - byteIdx * 8)` (MSB first). -/
def bmp_pixel (row : Nat → Nat) (pmt_row_pixel_idx : Nat) : Nat :=
  bmp_pixel_loop row (pmt_row_pixel_idx / 8)
    (7 - (pmt_row_pixel_idx - pmt_row_pixel_idx / 8 * 8)) 0 0

/-- The pixel value exactly as claim C4 states it: the sum over planes
`p` in 0..3 of (the bit at bit index `7 - (j % 8)` of plane `p`'s byte
`j / 8`) shifted left by `p`. -/
def pixelValueSpec (row : Nat → Nat) (j : Nat) : Nat :=
    ((row (0 * PMT_DECODED_ROW_PLANE_BYTES + j / 8) % 256).testBit (7 - j % 8)).toNat <<< 0
  + ((row (1 * PMT_DECODED_ROW_PLANE_BYTES + j / 8) % 256).testBit (7 - j % 8)).toNat <<< 1
  + ((row (2 * PMT_DECODED_ROW_PLANE_BYTES + j / 8) % 256).testBit (7 - j % 8)).toNat <<< 2
  + ((row (3 * PMT_DECODED_ROW_PLANE_BYTES + j / 8) % 256).testBit (7 - j % 8)).toNat <<< 3

lemma toNat_le_one (b : Bool) : b.toNat ≤ 1 := by cases b <;> decide

lemma pmt_plane_pixel_eq_testBit (b idx : Nat) (hidx : idx ≤ 7) :
    pmt_plane_pixel b idx = (b.testBit idx).toNat := by
  unfold pmt_plane_pixel
  have hpow : (2 : Nat) ^ idx < 256 := by
    calc (2 : Nat) ^ idx ≤ 2 ^ 7 := Nat.pow_le_pow_right (by omega) hidx
    _ < 256 := by norm_num
  rw [Nat.one_shiftLeft, Nat.mod_eq_of_lt hpow, Nat.and_two_pow,
    Nat.shiftRight_eq_div_pow]
  exact Nat.mul_div_cancel _ (Nat.pos_pow_of_pos idx (by omega))

lemma bmp_pixel_loop_0 (row : Nat → Nat) (b i res : Nat) :
    bmp_pixel_loop row b i 0 res =
      bmp_pixel_loop row b i 1
        ((res + (pmt_plane_pixel (row (0 * PMT_DECODED_ROW_PLANE_BYTES + b) % 256) i
          <<< 0)) % 256) := by
  rw [bmp_pixel_loop]
  norm_num

lemma bmp_pixel_loop_1 (row : Nat → Nat) (b i res : Nat) :
    bmp_pixel_loop row b i 1 res =
      bmp_pixel_loop row b i 2
        ((res + (pmt_plane_pixel (row (1 * PMT_DECODED_ROW_PLANE_BYTES + b) % 256) i
          <<< 1)) % 256) := by
  rw [bmp_pixel_loop]
  norm_num

lemma bmp_pixel_loop_2 (row : Nat → Nat) (b i res : Nat) :
    bmp_pixel_loop row b i 2 res =
      bmp_pixel_loop row b i 3
        ((res + (pmt_plane_pixel (row (2 * PMT_DECODED_ROW_PLANE_BYTES + b) % 256) i
          <<< 2)) % 256) := by
  rw [bmp_pixel_loop]
  norm_num

lemma bmp_pixel_loop_3 (row : Nat → Nat) (b i res : Nat) :
    bmp_pixel_loop row b i 3 res =
      bmp_pixel_loop row b i 4
        ((res + (pmt_plane_pixel (row (3 * PMT_DECODED_ROW_PLANE_BYTES + b) % 256) i
          <<< 3)) % 256) := by
  rw [bmp_pixel_loop]
  norm_num

lemma bmp_pixel_loop_4 (row : Nat → Nat) (b i res : Nat) :
    bmp_pixel_loop row b i 4 res = res := by
  rw [bmp_pixel_loop]
  norm_num

lemma acc_fold (t0 t1 t2 t3 : Nat) (h0 : t0 ≤ 1) (h1 : t1 ≤ 1) (h2 : t2 ≤ 1)
    (h3 : t3 ≤ 1) :
    ((((0 + t0 <<< 0) % 256 + t1 <<< 1) % 256 + t2 <<< 2) % 256 + t3 <<< 3) % 256 =
      t0 <<< 0 + t1 <<< 1 + t2 <<< 2 + t3 <<< 3 := by
  interval_cases t0 <;> interval_cases t1 <;> interval_cases t2 <;> interval_cases t3 <;>
    decide

lemma sum4_lt_16 (t0 t1 t2 t3 : Nat) (h0 : t0 ≤ 1) (h1 : t1 ≤ 1) (h2 : t2 ≤ 1)
    (h3 : t3 ≤ 1) :
    t0 <<< 0 + t1 <<< 1 + t2 <<< 2 + t3 <<< 3 < 16 := by
  interval_cases t0 <;> interval_cases t1 <;> interval_cases t2 <;> interval_cases t3 <;>
    decide

/-- The accumulator computed by `bmp_pixel` equals the plane-bit sum that the
spec describes: each plane contributes its bit at `7 - (j % 8)` of byte
`j / 8`, shifted by the plane index. -/
lemma bmp_pixel_eq_spec (row : Nat → Nat) (j : Nat) :
    bmp_pixel row j = pixelValueSpec row j := by
  have hmod : j - j / 8 * 8 = j % 8 := by omega
  have hbit : 7 - j % 8 ≤ 7 := by omega
  unfold bmp_pixel
  rw [hmod]
  rw [bmp_pixel_loop_0, bmp_pixel_loop_1, bmp_pixel_loop_2, bmp_pixel_loop_3,
    bmp_pixel_loop_4]
  rw [pmt_plane_pixel_eq_testBit _ _ hbit, pmt_plane_pixel_eq_testBit _ _ hbit,
    pmt_plane_pixel_eq_testBit _ _ hbit, pmt_plane_pixel_eq_testBit _ _ hbit]
  unfold pixelValueSpec
  exact acc_fold _ _ _ _ (toNat_le_one _) (toNat_le_one _) (toNat_le_one _)
    (toNat_le_one _)

lemma pixelValueSpec_lt_16 (row : Nat → Nat) (j : Nat) : pixelValueSpec row j < 16 := by
  unfold pixelValueSpec
  exact sum4_lt_16 _ _ _ _ (toNat_le_one _) (toNat_le_one _) (toNat_le_one _)
    (toNat_le_one _)

lemma bmp_pixel_lt_16 (row : Nat → Nat) (j : Nat) : bmp_pixel row j < 16 := by
  rw [bmp_pixel_eq_spec]
  exact pixelValueSpec_lt_16 row j

/-- Claim C9: for every decoded row buffer and pixel index below 840,
`bmp_pixel` returns a value below 16: each of the 4 planes contributes one
bit shifted by its plane number, so every packed nibble is a valid index
into the 16-entry color table. -/
theorem c9_bmp_pixel_lt_16 (row : Nat → Nat) (j : Nat) (h : j < PMT_PIXELS_PER_ROW) :
    bmp_pixel row j < 16 :=
  bmp_pixel_lt_16 row j

theorem c9_bmp_pixel_lt_16_witness : bmp_pixel (fun _ => 255) 0 < 16 :=
  c9_bmp_pixel_lt_16 (fun _ => 255) 0 (by norm_num)

/-- Pointwise update of a byte buffer: a single `*ptr = v` store. -/
def upd (buf : Nat → Nat) (i v : Nat) : Nat → Nat := fun k => if k = i then v else buf k

/-- The pixel loop of `convert_group_to_bmp` (src/pmt2bmp.c lines 226-239):
walk the 840 pixels of one row; an even pixel is placed in the high nibble of
the uint8 accumulator, an odd pixel completes the low nibble and the byte is
stored at the write cursor, which then advances. -/
def convert_row_loop (row : Nat → Nat) (pix bmpByte : Nat) (buf : Nat → Nat)
    (ptr : Nat) : (Nat → Nat) × Nat :=
  if h : pix < PMT_PIXELS_PER_ROW then
    if pix % 2 = 1 then
      convert_row_loop row (pix + 1) 0
        (upd buf ptr ((bmpByte + bmp_pixel row pix) % 256)) (ptr + 1)
    else
      convert_row_loop row (pix + 1) ((bmpByte + (bmp_pixel row pix <<< 4)) % 256)
        buf ptr
  else (buf, ptr)
termination_by PMT_PIXELS_PER_ROW - pix

/-- The flat 420-byte row `r` of a decoded group (C: `pmt_group_start +
row * PMT_DECODED_ROW_BYTES`, reinterpreted as `pmt_row_t`). -/
def rowAt (grp : Nat → Nat) (r : Nat) : Nat → Nat :=
  fun k => grp (r * PMT_DECODED_ROW_BYTES + k)

/-- The row loop of `convert_group_to_bmp` (src/pmt2bmp.c lines 221-240): for
each row, reset the write cursor to `bmp_group_start + row * BMP_ROW_BYTES`
and run the pixel loop; the returned cursor is the one left by the last
row processed. -/
def convert_group_rows (grp : Nat → Nat) (base : Nat) (r : Nat)
    (bufPtr : (Nat → Nat) × Nat) : (Nat → Nat) × Nat :=
  if h : r < PMT_ROWS_PER_GROUP then
    convert_group_rows grp base (r + 1)
      (convert_row_loop (rowAt grp r) 0 0 bufPtr.1 (base + r * BMP_ROW_BYTES))
  else bufPtr
termination_by PMT_ROWS_PER_GROUP - r

/-- `convert_group_to_bmp` (src/pmt2bmp.c lines 218-242): convert one decoded
group, writing into the BMP buffer at offset `base` (the C passes the pointer
`bmp_buf + i * BMP_GROUP_BYTES`); returns the final write cursor. -/
def convert_group_to_bmp (grp bmpBuf : Nat → Nat) (base : Nat) : (Nat → Nat) × Nat :=
  convert_group_rows grp base 0 (bmpBuf, base)

/-- The byte emitted for pixel pair `m` of a row: high nibble from the even
pixel `2m`, low nibble from the odd pixel `2m + 1`, with the uint8
truncations the C accumulator performs. -/
def pairByte (row : Nat → Nat) (m : Nat) : Nat :=
  ((bmp_pixel row (2 * m) <<< 4) % 256 + bmp_pixel row (2 * m + 1)) % 256

/-- A block store of `n` bytes starting at `ptr`, byte `t` of the block being
`f t`. -/
def writeSeg (buf : Nat → Nat) (ptr : Nat) (f : Nat → Nat) (n : Nat) : Nat → Nat :=
  fun k => if ptr ≤ k ∧ k < ptr + n then f (k - ptr) else buf k

lemma nibble_pack (a b : Nat) (ha : a < 16) (hb : b < 16) :
    ((a <<< 4) % 256 + b) % 256 = (a <<< 4) ||| b := by
  interval_cases a <;> interval_cases b <;> decide

lemma PMT_PIXELS_PER_ROW_eq : PMT_PIXELS_PER_ROW = 840 := rfl

lemma PMT_ROWS_PER_GROUP_eq : PMT_ROWS_PER_GROUP = 148 := rfl

lemma BMP_ROW_BYTES_eq : BMP_ROW_BYTES = 420 := rfl

lemma BMP_GROUP_BYTES_eq : BMP_GROUP_BYTES = 62160 := rfl

lemma convert_row_loop_even (row : Nat → Nat) (m : Nat) (buf : Nat → Nat) (ptr : Nat)
    (h : 2 * m < 840) :
    convert_row_loop row (2 * m) 0 buf ptr =
      convert_row_loop row (2 * m + 2) 0 (upd buf ptr (pairByte row m)) (ptr + 1) := by
  rw [convert_row_loop]
  rw [dif_pos (by simp only [PMT_PIXELS_PER_ROW_eq]; omega),
    if_neg (by omega : ¬ 2 * m % 2 = 1)]
  rw [convert_row_loop]
  rw [dif_pos (by simp only [PMT_PIXELS_PER_ROW_eq]; omega),
    if_pos (by omega : (2 * m + 1) % 2 = 1)]
  have hidx : 2 * m + 1 + 1 = 2 * m + 2 := by omega
  have hval : ((0 + (bmp_pixel row (2 * m) <<< 4)) % 256 + bmp_pixel row (2 * m + 1)) % 256 =
      pairByte row m := by
    unfold pairByte
    rw [Nat.zero_add]
  rw [hidx, hval]

lemma convert_row_loop_spec (row : Nat → Nat) :
    ∀ n j buf ptr, j + n = 420 →
      convert_row_loop row (2 * j) 0 buf ptr =
        (writeSeg buf ptr (fun t => pairByte row (j + t)) n, ptr + n) := by
  intro n
  induction n with
  | zero =>
    intro j buf ptr hj
    rw [convert_row_loop]
    rw [dif_neg (by simp only [PMT_PIXELS_PER_ROW_eq]; omega)]
    have hbuf : writeSeg buf ptr (fun t => pairByte row (j + t)) 0 = buf := by
      funext k
      unfold writeSeg
      rw [if_neg (by omega)]
    rw [hbuf, Nat.add_zero]
  | succ n ihn =>
    intro j buf ptr hj
    rw [convert_row_loop_even row j buf ptr (by omega)]
    rw [show 2 * j + 2 = 2 * (j + 1) by omega]
    rw [ihn (j + 1) _ _ (by omega)]
    rw [Prod.mk.injEq]
    constructor
    · funext k
      simp only [writeSeg, upd]
      by_cases hk1 : ptr + 1 ≤ k ∧ k < ptr + 1 + n
      · rw [if_pos hk1, if_pos (by omega)]
        congr 1
        omega
      · by_cases hk2 : k = ptr
        · subst hk2
          rw [if_neg (by omega), if_pos rfl, if_pos (by omega)]
          congr 1
          omega
        · rw [if_neg hk1, if_neg hk2, if_neg (by omega)]
    · omega

lemma convert_group_rows_spec (grp : Nat → Nat) (base : Nat) :
    ∀ n r bufPtr, r + n = 148 →
      convert_group_rows grp base r bufPtr =
        ((fun k =>
            if base + r * 420 ≤ k ∧ k < base + 62160 then
              pairByte (rowAt grp ((k - base) / 420)) ((k - base) % 420)
            else bufPtr.1 k),
          if n = 0 then bufPtr.2 else base + 62160) := by
  intro n
  induction n with
  | zero =>
    intro r bufPtr hr
    obtain ⟨b1, b2⟩ := bufPtr
    rw [convert_group_rows]
    rw [dif_neg (by simp only [PMT_ROWS_PER_GROUP_eq]; omega)]
    rw [Prod.mk.injEq]
    constructor
    · funext k
      rw [if_neg (by omega)]
    · rw [if_pos rfl]
  | succ n ihn =>
    intro r bufPtr hr
    rw [convert_group_rows]
    rw [dif_pos (by simp only [PMT_ROWS_PER_GROUP_eq]; omega)]
    have hrow := convert_row_loop_spec (rowAt grp r) 420 0 bufPtr.1
      (base + r * BMP_ROW_BYTES) (by omega)
    norm_num at hrow
    simp only [BMP_ROW_BYTES_eq]
    rw [hrow]
    rw [ihn (r + 1) _ (by omega)]
    rw [Prod.mk.injEq]
    constructor
    · funext k
      by_cases hk1 : base + (r + 1) * 420 ≤ k ∧ k < base + 62160
      · rw [if_pos hk1, if_pos (by constructor <;> omega)]
      · by_cases hk2 : base + r * 420 ≤ k ∧ k < base + (r + 1) * 420
        · rw [if_neg hk1]
          simp only [writeSeg]
          rw [if_pos (by constructor <;> omega), if_pos (by constructor <;> omega)]
          have hdiv : (k - base) / 420 = r := by omega
          have hmod : (k - base) % 420 = k - (base + r * 420) := by omega
          rw [hdiv, hmod]
        · rw [if_neg hk1]
          simp only [writeSeg]
          rw [if_neg (by omega), if_neg (by omega)]
    · by_cases hn0 : n = 0
      · subst hn0
        rw [if_pos rfl, if_neg (by omega)]
        omega
      · rw [if_neg hn0, if_neg (by omega)]

/-- Full characterization of `convert_group_to_bmp`: it writes exactly the
62160 bytes `[base, base + 62160)`, byte `base + r * 420 + m` holding the
packed pair byte for pixels `2m` and `2m + 1` of row `r`, and returns the
cursor `base + 62160`. -/
lemma convert_group_to_bmp_spec (grp bmpBuf : Nat → Nat) (base : Nat) :
    convert_group_to_bmp grp bmpBuf base =
      ((fun k =>
          if base ≤ k ∧ k < base + 62160 then
            pairByte (rowAt grp ((k - base) / 420)) ((k - base) % 420)
          else bmpBuf k),
        base + 62160) := by
  unfold convert_group_to_bmp
  rw [convert_group_rows_spec grp base 148 0 (bmpBuf, base) (by omega)]
  rw [Prod.mk.injEq]
  constructor
  · funext k
    norm_num
  · norm_num

/-- Claim C4: for every decoded group buffer, the plane reassembly produces
for each of the 148 rows exactly 420 output bytes (the write cursor ends at
`base + 62160` and nothing outside `[base, base + 62160)` is touched), and
output byte `k` of row `r` is `(v(2k) <<< 4) ||| v(2k+1)` where `v(j)` sums,
over planes 0..3, the bit at index `7 - (j % 8)` of the plane's byte `j / 8`
shifted by the plane number (plane 0 giving the least-significant bit). -/
theorem c4_convert_group_packing (grp bmpBuf : Nat → Nat) (base : Nat) :
    (convert_group_to_bmp grp bmpBuf base).2 = base + 62160 ∧
    (∀ k, k < base ∨ base + 62160 ≤ k →
      (convert_group_to_bmp grp bmpBuf base).1 k = bmpBuf k) ∧
    (∀ r k, r < 148 → k < 420 →
      (convert_group_to_bmp grp bmpBuf base).1 (base + r * 420 + k) =
        (pixelValueSpec (rowAt grp r) (2 * k) <<< 4) |||
          pixelValueSpec (rowAt grp r) (2 * k + 1)) := by
  rw [convert_group_to_bmp_spec]
  refine ⟨rfl, ?_, ?_⟩
  · intro k hk
    simp only []
    rw [if_neg (by omega)]
  · intro r k hr hk
    simp only []
    rw [if_pos (by constructor <;> omega)]
    rw [show (base + r * 420 + k - base) / 420 = r by omega,
      show (base + r * 420 + k - base) % 420 = k by omega]
    unfold pairByte
    rw [bmp_pixel_eq_spec, bmp_pixel_eq_spec]
    exact nibble_pack _ _ (pixelValueSpec_lt_16 _ _) (pixelValueSpec_lt_16 _ _)

theorem c4_convert_group_packing_witness :
    (convert_group_to_bmp (fun _ => 0) (fun _ => 0) 0).1 (0 + 0 * 420 + 0) =
      (pixelValueSpec (rowAt (fun _ => 0) 0) (2 * 0) <<< 4) |||
        pixelValueSpec (rowAt (fun _ => 0) 0) (2 * 0 + 1) :=
  (c4_convert_group_packing (fun _ => 0) (fun _ => 0) 0).2.2 0 0 (by norm_num)
    (by norm_num)

/-- `pmt_to_bmp_color_table` (src/pmt2bmp.c lines 245-255): output channel
`c` in {0,1,2} (B,G,R order) is input channel `2 - c` (R,G,B order) shifted
left by 2 and truncated to a uint8; output channel 3 is always 0. -/
def pmt_to_bmp_color_table (pmt : Nat → Nat → Nat) : Nat → Nat → Nat :=
  fun i c => if c < 3 then ((pmt i (2 - c) % 256) <<< 2) % 256 else 0

/-- The worked example from the spec: entry 0 is the 6-bit R,G,B triple
`(0x3f, 0x20, 0x10)`. -/
def exampleColorEntry : Nat → Nat → Nat :=
  fun i c => if i = 0 then [0x3f, 0x20, 0x10].getD c 0 else 0

/-- Claim C5: for every 16-entry, 3-channel color table of 6-bit values, the
conversion sets `output[i][c] = input[i][2-c] <<< 2` for channels 0..2
(reversing R,G,B to B,G,R and scaling 6-bit to 8-bit) and `output[i][3] = 0`;
in particular input entry `(0x3f, 0x20, 0x10)` becomes
`(0x40, 0x80, 0xfc, 0x00)`. -/
theorem c5_color_table_conversion (pmt : Nat → Nat → Nat)
    (hp : ∀ i, i < 16 → ∀ c, c < 3 → pmt i c < 64) :
    (∀ i, i < 16 → ∀ c, c < 3 →
      pmt_to_bmp_color_table pmt i c = pmt i (2 - c) <<< 2) ∧
    (∀ i, i < 16 → pmt_to_bmp_color_table pmt i 3 = 0) ∧
    (pmt_to_bmp_color_table exampleColorEntry 0 0 = 0x40 ∧
      pmt_to_bmp_color_table exampleColorEntry 0 1 = 0x80 ∧
      pmt_to_bmp_color_table exampleColorEntry 0 2 = 0xfc ∧
      pmt_to_bmp_color_table exampleColorEntry 0 3 = 0) := by
  refine ⟨?_, ?_, by decide, by decide, by decide, by decide⟩
  · intro i hi c hc
    have h64 : pmt i (2 - c) < 64 := hp i hi (2 - c) (by omega)
    have hsh : pmt i (2 - c) <<< 2 = 4 * pmt i (2 - c) := by
      rw [Nat.shiftLeft_eq]
      ring
    unfold pmt_to_bmp_color_table
    rw [if_pos hc, Nat.mod_eq_of_lt (by omega : pmt i (2 - c) < 256)]
    rw [hsh]
    exact Nat.mod_eq_of_lt (by omega)
  · intro i hi
    unfold pmt_to_bmp_color_table
    rw [if_neg (by omega)]

theorem c5_color_table_conversion_witness :
    pmt_to_bmp_color_table exampleColorEntry 0 0 = exampleColorEntry 0 2 <<< 2 :=
  (c5_color_table_conversion exampleColorEntry (by decide)).1 0 (by decide) 0
    (by decide)

/-- A `FILE *` open for reading: the file bytes and the read position. -/
structure FileStream where
  data : List Nat
  pos : Nat
  deriving DecidableEq, Repr

/-- `fread(buf, 1, n, fh)`: yields the bytes actually available (up to `n`)
and advances the position by that many. -/
def fread (s : FileStream) (n : Nat) : List Nat × FileStream :=
  let bytes := (s.data.drop s.pos).take n
  (bytes, ⟨s.data, s.pos + bytes.length⟩)

/-- `fseek(fh, n, SEEK_CUR)`. -/
def fseek_cur (s : FileStream) (n : Nat) : FileStream := ⟨s.data, s.pos + n⟩

/-- `pmt_read_group` (src/pmt2bmp.c lines 119-141): read a 2-byte
little-endian length prefix into a uint16, reject lengths exceeding the
destination capacity, then read exactly that many payload bytes.  Returns
the byte count, the payload placed in the destination, and the advanced
stream. -/
def pmt_read_group (s : FileStream) (buf_size : Nat) :
    Except PmtErr (Nat × List Nat × FileStream) :=
  let r1 := fread s 2
  if r1.1.length ≠ 2 then .error .truncatedInput
  else
    let group_size := r1.1.getD 0 0 % 256 + 256 * (r1.1.getD 1 0 % 256)
    if group_size > buf_size then .error .bufferTooSmall
    else
      let r2 := fread r1.2 group_size
      if r2.1.length ≠ group_size then .error .truncatedInput
      else .ok (group_size, r2.1, r2.2)

/-- Claim C7: the group reader fails with `truncatedInput` when fewer than 2
bytes remain for the little-endian length prefix or fewer than the declared
length remain for the payload, fails with `bufferTooSmall` when the declared
length exceeds the destination capacity, and otherwise succeeds returning
exactly the declared length together with that many payload bytes and the
advanced stream position. -/
theorem c7_read_group_contract (s : FileStream) (bufSize : Nat) :
    (s.data.length < s.pos + 2 → pmt_read_group s bufSize = .error .truncatedInput) ∧
    (∀ len, s.pos + 2 ≤ s.data.length →
      len = s.data.getD s.pos 0 % 256 + 256 * (s.data.getD (s.pos + 1) 0 % 256) →
      ((bufSize < len → pmt_read_group s bufSize = .error .bufferTooSmall) ∧
       (len ≤ bufSize → s.data.length < s.pos + 2 + len →
         pmt_read_group s bufSize = .error .truncatedInput) ∧
       (len ≤ bufSize → s.pos + 2 + len ≤ s.data.length →
         pmt_read_group s bufSize =
           .ok (len, (s.data.drop (s.pos + 2)).take len, ⟨s.data, s.pos + 2 + len⟩) ∧
         ((s.data.drop (s.pos + 2)).take len).length = len))) := by
  have hlen1 : ((s.data.drop s.pos).take 2).length = min 2 (s.data.length - s.pos) := by
    simp
  constructor
  · intro hshort
    simp only [pmt_read_group, fread]
    rw [if_pos (by rw [hlen1]; omega)]
  · intro len hge hlen
    have h2 : ((s.data.drop s.pos).take 2).length = 2 := by
      rw [hlen1]
      omega
    have hb0 : ((s.data.drop s.pos).take 2).getD 0 0 = s.data.getD s.pos 0 := by
      simp only [List.getD_eq_getElem?_getD, List.getElem?_take, List.getElem?_drop]
      norm_num
    have hb1 : ((s.data.drop s.pos).take 2).getD 1 0 = s.data.getD (s.pos + 1) 0 := by
      simp only [List.getD_eq_getElem?_getD, List.getElem?_take, List.getElem?_drop]
      norm_num
    have hexpr : ((s.data.drop s.pos).take 2).getD 0 0 % 256 +
        256 * (((s.data.drop s.pos).take 2).getD 1 0 % 256) = len := by
      rw [hb0, hb1, hlen]
    refine ⟨?_, ?_, ?_⟩
    · intro hbl
      simp only [pmt_read_group, fread]
      rw [if_neg (by simp [h2]), hexpr, if_pos (by omega : len > bufSize)]
    · intro hle hshort
      have hlen2 : ((s.data.drop (s.pos + 2)).take len).length =
          min len (s.data.length - (s.pos + 2)) := by
        simp
      simp only [pmt_read_group, fread]
      rw [if_neg (by simp [h2]), hexpr, if_neg (by omega : ¬ len > bufSize), h2]
      rw [if_pos (by rw [hlen2]; omega)]
    · intro hle hfit
      have hlen2 : ((s.data.drop (s.pos + 2)).take len).length = len := by
        rw [show ((s.data.drop (s.pos + 2)).take len).length =
          min len (s.data.length - (s.pos + 2)) by simp]
        omega
      constructor
      · simp only [pmt_read_group, fread]
        rw [if_neg (by simp [h2]), hexpr, if_neg (by omega : ¬ len > bufSize), h2]
        rw [if_neg (by simp [hlen2]), hlen2]
      · exact hlen2

theorem c7_read_group_contract_witness :
    pmt_read_group ⟨[2, 0, 9, 8, 7], 0⟩ 62160 =
        .ok (2, (([2, 0, 9, 8, 7] : List Nat).drop (0 + 2)).take 2,
          ⟨[2, 0, 9, 8, 7], 0 + 2 + 2⟩) ∧
      ((([2, 0, 9, 8, 7] : List Nat).drop (0 + 2)).take 2).length = 2 :=
  ((c7_read_group_contract ⟨[2, 0, 9, 8, 7], 0⟩ 62160).2 2 (by decide) (by decide)).2.2
    (by decide) (by decide)

/-- Overwrite bytes `[base, base + l.length)` of `buf` with the list `l`
(the C `fread` writes the payload into the start of `raw_group_buf`; bytes
beyond the payload keep their previous, stale contents). -/
def writeList (buf : Nat → Nat) (base : Nat) (l : List Nat) : Nat → Nat :=
  fun k => if base ≤ k ∧ k < base + l.length then l.getD (k - base) 0 else buf k

/-- One group iteration of the `pmt_to_bmp` loop body before the conversion
(src/pmt2bmp.c lines 270-280): read a group into the raw buffer and decode
it against the declared size.  Yields the advanced stream, the raw buffer
contents after the read, and the decoded 62160 bytes. -/
def groupStep (s : FileStream) (rawBuf : Nat → Nat) :
    Except PmtErr (FileStream × (Nat → Nat) × List Nat) :=
  match pmt_read_group s PMT_DECODED_GROUP_BYTES with
  | .error e => .error e
  | .ok (gsize, payload, s1) =>
    let rawBuf1 := writeList rawBuf 0 payload
    match pmt_decode_group rawBuf1 gsize PMT_DECODED_GROUP_BYTES with
    | .error e => .error e.1
    | .ok decoded => .ok (s1, rawBuf1, decoded)

/-- The stream and raw-buffer state after `i` successful group iterations,
starting from the given initial state. -/
def pipeAfter (s : FileStream) (rawBuf : Nat → Nat) :
    Nat → Except PmtErr (FileStream × (Nat → Nat))
  | 0 => .ok (s, rawBuf)
  | i + 1 =>
    match pipeAfter s rawBuf i with
    | .error e => .error e
    | .ok (st, rb) =>
      match groupStep st rb with
      | .error e => .error e
      | .ok (st1, rb1, _) => .ok (st1, rb1)

/-- The groups loop of `pmt_to_bmp` (src/pmt2bmp.c lines 269-283): process
the remaining `n` groups, the next one converting into the slice starting at
`i * BMP_GROUP_BYTES`; `endPtr` is the write cursor returned by the last
conversion performed. -/
def pmt_to_bmp_groups (s : FileStream) (rawBuf bmpBuf : Nat → Nat) (endPtr i : Nat) :
    Nat → Except PmtErr (FileStream × (Nat → Nat) × (Nat → Nat) × Nat)
  | 0 => .ok (s, rawBuf, bmpBuf, endPtr)
  | n + 1 =>
    match groupStep s rawBuf with
    | .error e => .error e
    | .ok (s1, rawBuf1, decoded) =>
      let conv := convert_group_to_bmp (fun t => decoded.getD t 0) bmpBuf
        (i * BMP_GROUP_BYTES)
      pmt_to_bmp_groups s1 rawBuf1 conv.1 conv.2 (i + 1) n

/-- The 64 bytes of the converted BMP color table, 16 entries of 4 bytes. -/
def bmp_color_table_bytes (pmt : Nat → Nat → Nat) : List Nat :=
  ((List.range 16).map (fun i =>
    (List.range 4).map (fun c => pmt_to_bmp_color_table pmt i c))).flatten

/-- `pmt_to_bmp` (src/pmt2bmp.c lines 258-297): process the 6 groups in
input order, then skip 16 footer bytes, read the 48-byte raw color table
(16 entries of 3 bytes, entry `i` channel `c` at byte `3 * i + c`) and
convert it.  `rawInit` models the uninitialized stack contents of
`raw_group_buf`, `bmpInit` the initial contents of the caller's pixel
array.  Returns the final pixel buffer, the converted color table bytes,
and the final write cursor as an offset into the pixel array. -/
def pmt_to_bmp (s : FileStream) (rawInit bmpInit : Nat → Nat) :
    Except PmtErr ((Nat → Nat) × List Nat × Nat) :=
  match pmt_to_bmp_groups s rawInit bmpInit 0 0 PMT_GROUPS with
  | .error e => .error e
  | .ok (s1, _, bmpBuf, endPtr) =>
    let s2 := fseek_cur s1 16
    let r := fread s2 48
    if r.1.length ≠ 48 then .error .truncatedInput
    else .ok (bmpBuf, bmp_color_table_bytes (fun i c => r.1.getD (3 * i + c) 0), endPtr)

lemma pipeAfter_shift (s : FileStream) (rawBuf : Nat → Nat) (s1 : FileStream)
    (rb1 : Nat → Nat) (dec : List Nat)
    (h : groupStep s rawBuf = .ok (s1, rb1, dec)) :
    ∀ j, pipeAfter s rawBuf (j + 1) = pipeAfter s1 rb1 j := by
  intro j
  induction j with
  | zero => simp [pipeAfter, h]
  | succ j ih =>
    rw [pipeAfter, ih, pipeAfter]

lemma pipeAfter_err (s : FileStream) (rawBuf : Nat → Nat) (e : PmtErr)
    (h : groupStep s rawBuf = .error e) :
    ∀ m, pipeAfter s rawBuf (m + 1) = .error e := by
  intro m
  induction m with
  | zero => simp [pipeAfter, h]
  | succ m ih => rw [pipeAfter, ih]

/-- Characterization of the groups loop on success: the final stream and raw
buffer are those after `n` iterations, the end pointer is the cursor of the
last conversion, the pixel buffer is touched only inside the processed
slices, and slice `i + j` holds exactly the conversion of group `j`'s
decoded bytes. -/
lemma pmt_to_bmp_groups_spec :
    ∀ n i s rawBuf bmpBuf endPtr sF rawF bmpF epF,
      pmt_to_bmp_groups s rawBuf bmpBuf endPtr i n = .ok (sF, rawF, bmpF, epF) →
      (pipeAfter s rawBuf n = .ok (sF, rawF)) ∧
      (n = 0 → epF = endPtr) ∧
      (0 < n → epF = (i + n) * 62160) ∧
      (∀ k, k < i * 62160 → bmpF k = bmpBuf k) ∧
      (∀ k, (i + n) * 62160 ≤ k → bmpF k = bmpBuf k) ∧
      (∀ j, j < n → ∃ st rb st1 rb1 dec,
        pipeAfter s rawBuf j = .ok (st, rb) ∧
        groupStep st rb = .ok (st1, rb1, dec) ∧
        ∀ k, k < 62160 →
          bmpF ((i + j) * 62160 + k) =
            (convert_group_to_bmp (fun t => dec.getD t 0) (fun _ => 0) 0).1 k) := by
  intro n
  induction n with
  | zero =>
    intro i s rawBuf bmpBuf endPtr sF rawF bmpF epF hok
    rw [pmt_to_bmp_groups] at hok
    have h1 : s = sF ∧ rawBuf = rawF ∧ bmpBuf = bmpF ∧ endPtr = epF := by
      simpa using hok
    obtain ⟨hs, hr, hb, he⟩ := h1
    subst hs
    subst hr
    subst hb
    subst he
    refine ⟨rfl, fun _ => rfl, ?_, fun k _ => rfl, fun k _ => rfl, ?_⟩
    · intro h0
      exact absurd h0 (by norm_num)
    · intro j hj
      exact absurd hj (by norm_num)
  | succ n ihn =>
    intro i s rawBuf bmpBuf endPtr sF rawF bmpF epF hok
    rw [pmt_to_bmp_groups] at hok
    cases hgs : groupStep s rawBuf with
    | error e =>
      rw [hgs] at hok
      simp at hok
    | ok tri =>
      obtain ⟨s1, rb1, dec⟩ := tri
      rw [hgs] at hok
      simp only [] at hok
      rw [convert_group_to_bmp_spec, BMP_GROUP_BYTES_eq] at hok
      simp only [] at hok
      have ih := ihn (i + 1) s1 rb1 _ _ sF rawF bmpF epF hok
      obtain ⟨ih1, ih2, ih3, ih4, ih5, ih6⟩ := ih
      have hshift := pipeAfter_shift s rawBuf s1 rb1 dec hgs
      refine ⟨?_, ?_, ?_, ?_, ?_, ?_⟩
      · rw [hshift n]
        exact ih1
      · intro h0
        exact absurd h0 (by omega)
      · intro _
        by_cases hn0 : n = 0
        · subst hn0
          have := ih2 rfl
          omega
        · have := ih3 (by omega)
          omega
      · intro k hk
        rw [ih4 k (by omega)]
        rw [if_neg (by omega)]
      · intro k hk
        rw [ih5 k (by omega)]
        rw [if_neg (by omega)]
      · intro j hj
        cases j with
        | zero =>
          refine ⟨s, rawBuf, s1, rb1, dec, rfl, hgs, ?_⟩
          intro k hk
          rw [show (i + 0) * 62160 + k = i * 62160 + k by omega]
          rw [ih4 (i * 62160 + k) (by omega)]
          rw [if_pos (by constructor <;> omega)]
          rw [convert_group_to_bmp_spec]
          simp only []
          rw [if_pos (by constructor <;> omega)]
          rw [show i * 62160 + k - i * 62160 = k by omega, Nat.sub_zero]
        | succ j =>
          obtain ⟨st, rb, st1, rb1x, decx, hpa, hgsx, hsl⟩ := ih6 j (by omega)
          refine ⟨st, rb, st1, rb1x, decx, ?_, hgsx, ?_⟩
          · rw [hshift j]
            exact hpa
          · intro k hk
            rw [show (i + (j + 1)) * 62160 + k = (i + 1 + j) * 62160 + k by omega]
            exact hsl k hk

/-- Fail-fast: if some group iteration fails, the whole groups loop returns
that iteration's error. -/
lemma pmt_to_bmp_groups_err :
    ∀ n i s rawBuf bmpBuf endPtr j st rb e, j < n →
      pipeAfter s rawBuf j = .ok (st, rb) → groupStep st rb = .error e →
      pmt_to_bmp_groups s rawBuf bmpBuf endPtr i n = .error e := by
  intro n
  induction n with
  | zero =>
    intro i s rawBuf bmpBuf endPtr j st rb e hj hpa hgs
    exact absurd hj (by omega)
  | succ n ihn =>
    intro i s rawBuf bmpBuf endPtr j st rb e hj hpa hgs
    cases j with
    | zero =>
      have h1 : s = st ∧ rawBuf = rb := by
        simpa [pipeAfter] using hpa
      obtain ⟨h1a, h1b⟩ := h1
      subst h1a
      subst h1b
      rw [pmt_to_bmp_groups, hgs]
    | succ j =>
      cases hgs0 : groupStep s rawBuf with
      | error e0 =>
        rw [pipeAfter_err s rawBuf e0 hgs0 j] at hpa
        simp at hpa
      | ok tri =>
        obtain ⟨s1, rb1, dec⟩ := tri
        rw [pipeAfter_shift s rawBuf s1 rb1 dec hgs0 j] at hpa
        rw [pmt_to_bmp_groups, hgs0]
        simp only []
        exact ihn (i + 1) s1 rb1 _ _ j st rb e (by omega) hpa hgs

lemma bmp_color_table_bytes_length (pmt : Nat → Nat → Nat) :
    (bmp_color_table_bytes pmt).length = 64 := rfl

/-- Claim C8: the pipeline processes the 6 groups in input order, writing
group `i`'s reassembled bytes into the slice `[i*62160, (i+1)*62160)` of the
output pixel array; on success exactly 372960 bytes have been written to the
pixel array (the final cursor is 372960 and nothing at or beyond it changed)
and exactly 64 bytes form the output color table; and if any sub-step fails
(a group read or decode, or the color-table read), the whole call returns
that failure with no partial recovery. -/
theorem c8_pipeline_contract (s : FileStream) (rawInit bmpInit : Nat → Nat) :
    (∀ bmpBuf ct endPtr, pmt_to_bmp s rawInit bmpInit = .ok (bmpBuf, ct, endPtr) →
      ct.length = 64 ∧ endPtr = 372960 ∧
      (∀ k, 372960 ≤ k → bmpBuf k = bmpInit k) ∧
      (∀ i, i < 6 → ∃ st rb st1 rb1 dec,
        pipeAfter s rawInit i = .ok (st, rb) ∧
        groupStep st rb = .ok (st1, rb1, dec) ∧
        ∀ k, k < 62160 →
          bmpBuf (i * 62160 + k) =
            (convert_group_to_bmp (fun t => dec.getD t 0) (fun _ => 0) 0).1 k)) ∧
    (∀ i st rb e, i < 6 → pipeAfter s rawInit i = .ok (st, rb) →
      groupStep st rb = .error e → pmt_to_bmp s rawInit bmpInit = .error e) ∧
    (∀ sF rawF bmpF epF,
      pmt_to_bmp_groups s rawInit bmpInit 0 0 PMT_GROUPS = .ok (sF, rawF, bmpF, epF) →
      (fread (fseek_cur sF 16) 48).1.length ≠ 48 →
      pmt_to_bmp s rawInit bmpInit = .error .truncatedInput) := by
  have h6 : PMT_GROUPS = 6 := rfl
  refine ⟨?_, ?_, ?_⟩
  · intro bmpBuf ct endPtr hok
    rw [pmt_to_bmp] at hok
    cases hgl : pmt_to_bmp_groups s rawInit bmpInit 0 0 PMT_GROUPS with
    | error e =>
      rw [hgl] at hok
      simp at hok
    | ok quad =>
      obtain ⟨s1, rawF, bmpF, epF⟩ := quad
      rw [hgl] at hok
      simp only [] at hok
      by_cases hct : (fread (fseek_cur s1 16) 48).1.length ≠ 48
      · rw [if_pos hct] at hok
        simp at hok
      · rw [if_neg hct] at hok
        have h2 : bmpF = bmpBuf ∧
            bmp_color_table_bytes
              (fun i c => (fread (fseek_cur s1 16) 48).1.getD (3 * i + c) 0) = ct ∧
            epF = endPtr := by
          simpa using hok
        obtain ⟨hb, hc, he⟩ := h2
        subst hb
        subst hc
        subst he
        obtain ⟨hp1, hp2, hp3, hp4, hp5, hp6⟩ :=
          pmt_to_bmp_groups_spec PMT_GROUPS 0 s rawInit bmpInit 0 s1 rawF bmpF epF hgl
        refine ⟨bmp_color_table_bytes_length _, ?_, ?_, ?_⟩
        · have := hp3 (by decide)
          omega
        · intro k hk
          have := hp5 k (by omega)
          simpa using this
        · intro i hi
          obtain ⟨st, rb, st1, rb1, dec, hpa, hgsx, hsl⟩ := hp6 i (by omega)
          refine ⟨st, rb, st1, rb1, dec, hpa, hgsx, ?_⟩
          intro k hk
          have := hsl k hk
          simpa using this
  · intro i st rb e hi hpa hgs
    rw [pmt_to_bmp]
    rw [pmt_to_bmp_groups_err PMT_GROUPS 0 s rawInit bmpInit 0 i st rb e (by omega)
      hpa hgs]
  · intro sF rawF bmpF epF hgl hct
    rw [pmt_to_bmp, hgl]
    simp only []
    rw [if_pos hct]

theorem c8_pipeline_contract_witness :
    pmt_to_bmp ⟨[], 0⟩ (fun _ => 0) (fun _ => 0) = .error .truncatedInput :=
  (c8_pipeline_contract ⟨[], 0⟩ (fun _ => 0) (fun _ => 0)).2.1 0 ⟨[], 0⟩ (fun _ => 0)
    .truncatedInput (by decide) rfl rfl
